import Mathlib

set_option maxRecDepth 4000

/-!
Verification of the schema-analysis core of the `text-tools` repository.

The repository contains two variants of the analyser:
* `tt/xmlschema.py` (class `Analysis`), the richer variant with an
  optional override schema;
* `xml-schema/analysis.py` (class `SchemaAnalysis`), the simpler variant.

Both share the same definition extractor (`findDefs`); their resolution
loops (`resolve`/`infer`) and report renderers differ in small ways that
are modelled separately below (`inferStep` vs `inferStepXS`,
`tsvLineTT` vs `tsvLineXS`).

Python conventions are embedded explicitly:
* a `dict` is an association list in insertion order (`Table`);
  `d[k] = v` on a fresh key appends, on an existing key replaces in place;
* `d.get(k, None)` is `lookupT`, raising indexing `d[k]` is an `Option`
  result where `none` models the `KeyError`;
* truthiness of an optional bool (`if info["mixed"]:`) is `truthyOB`,
  truthiness of an optional string is `truthyOS`.
-/

namespace TextTools

/-- The `kind` values stored by the analyser: the Python code stores the
strings `"simple"` / `"complex"`. -/
inductive Kind where
  | simple : Kind
  | complex : Kind
deriving DecidableEq, Repr

/-- The string the Python code stores for a kind. -/
def kindStr : Kind → String
  | .simple => "simple"
  | .complex => "complex"

/-- One definition record, the dict
`dict(tag=tag, abstract=abstract, mixed=mixed, subs=subs)` built in
`findDefs`, to which the keys `kind` and `base` may be added later.
`mixed : Option Bool` also covers the `None` value consulted by
`info.get("mixed", None)`; `kind = none` / `base = none` model the key
being absent. -/
structure Info where
  tag : String
  abstract : Bool
  mixed : Option Bool
  kind : Option Kind
  subs : Option String
  base : Option String
deriving DecidableEq, Repr

/-- The `definitions` dict: name → record, in insertion order. -/
abbrev Table := List (String × Info)

/-- Python `definitions.get(k, None)`: first binding of the key. -/
def lookupT : Table → String → Option Info
  | [], _ => none
  | (n, i) :: rest, k => if n = k then some i else lookupT rest k

/-- In-place mutation `definitions[k] = i` for a key that is (expected to
be) present: replaces the first binding of `k`, leaves the table
unchanged if `k` is absent. -/
def updateT : Table → String → Info → Table
  | [], _, _ => []
  | (n, j) :: rest, k, i => if n = k then (n, i) :: rest else (n, j) :: updateT rest k i

/-- In-place field mutation `definitions[k]["f"] = v` on the first binding
of `k`; no-op if `k` is absent (the Python sites are only reached with the
key present). -/
def modifyT : Table → String → (Info → Info) → Table
  | [], _, _ => []
  | (n, i) :: rest, k, f => if n = k then (n, f i) :: rest else (n, i) :: modifyT rest k f

/-- Python truthiness of an optional bool value (`None` and `False` are
falsy). -/
def truthyOB : Option Bool → Bool
  | some true => true
  | _ => false

/-- Python truthiness of an optional string value (`None` and `""` are
falsy). -/
def truthyOS : Option String → Bool
  | none => false
  | some s => !(s == "")

/-- The characters after the first `':'`, if any. -/
def afterColon : List Char → Option (List Char)
  | [] => none
  | c :: rest => if c = ':' then some rest else afterColon rest

/-- Python `other.split(":", 1)[-1]`: everything after the first colon, or the
whole string when it has no colon. -/
def bareName (s : String) : String :=
  match afterColon s.data with
  | none => s
  | some rest => String.mk rest

/-- The membership set `Analysis.types`. -/
def typesSet : List String := ["simpleType", "complexType"]

/-- The membership set `Analysis.notInteresting`. -/
def notInteresting : List String := ["attribute", "attributeGroup", "group"]

/-- A parsed schema node as the engine reads it: local tag and the
attributes `name`, `abstract`, `mixed`, `substitutionGroup`, `base`
(`node.get` results), plus the element-typed children in document
order. -/
inductive XNode : Type where
  | mk (tag : String) (nameA abstractA mixedA subsA baseA : Option String)
       (children : List XNode) : XNode

/-- State threaded through `findDefs`: the `definitions` dict and the
`redefinitions` counter. -/
structure DefState where
  definitions : Table
  redefinitions : List (String × Nat)
deriving DecidableEq, Repr

/-- Counter update `redefinitions[name] += 1` on a `collections.Counter` (default 0). -/
def bump : List (String × Nat) → String → List (String × Nat)
  | [], k => [(k, 1)]
  | (n, c) :: rest, k => if n = k then (n, c + 1) :: rest else (n, c) :: bump rest k

/-- Counter lookup (for stating properties of `redefinitions`). -/
def lookupCnt : List (String × Nat) → String → Option Nat
  | [], _ => none
  | (n, c) :: rest, k => if n = k then some c else lookupCnt rest k

/-- The `if definingName:` block of `findDefs`: at the top of a definition
a `simpleType`/`complexType` child fixes the enclosing record's `kind`
(and sets `mixed` when the child declares `mixed="true"`); deeper down an
`extension` node with a truthy `base` records that base reference. -/
def contextStep (st : DefState) (dn : Option String) (td : Bool)
    (tag : String) (mixed : Bool) (baseA : Option String) : DefState :=
  if truthyOS dn then
    let d := dn.getD ""
    if td then
      if typesSet.contains tag then
        let k : Kind := if tag = "simpleType" then .simple else .complex
        let st1 := { st with definitions := modifyT st.definitions d (fun i => { i with kind := some k }) }
        if mixed then
          { st1 with definitions := modifyT st1.definitions d (fun i => { i with mixed := some true }) }
        else st1
      else st
    else
      if tag = "extension" then
        if truthyOS baseA then
          { st with definitions := modifyT st.definitions d (fun i => { i with base := baseA }) }
        else st
      else st
  else st

/-- The registration block of `findDefs`: a node with a truthy `name`
whose tag is not in `notInteresting` either bumps the redefinition
counter (name already present) or appends a fresh record. -/
def registerName (st : DefState) (tag : String)
    (nameA abstractA mixedA subsA : Option String) : DefState :=
  if truthyOS nameA then
    if notInteresting.contains tag then st
    else
      let nm := nameA.getD ""
      if (lookupT st.definitions nm).isSome then
        { st with redefinitions := bump st.redefinitions nm }
      else
        { st with definitions := st.definitions ++
            [(nm, ⟨tag, abstractA = some "true", some (mixedA = some "true"), none, subsA, none⟩)] }
  else st

mutual

/-- Python `findDefs(node, definingName, topDef)`: one pre-order traversal step.
`dn = none` models `definingName = False`. -/
def findDefs (st : DefState) (n : XNode) (dn : Option String) (td : Bool) : DefState :=
  match n with
  | .mk tag nameA abstractA mixedA subsA baseA children =>
    let mixed := mixedA = some "true"
    let st1 := contextStep st dn td tag mixed baseA
    let st2 := registerName st1 tag nameA abstractA mixedA subsA
    let isElementDef := truthyOS nameA && (tag = "element" : Bool)
    let defining := if truthyOS dn then dn else if isElementDef then nameA else none
    let top := if truthyOS dn then false else if isElementDef then true else false
    findDefsList st2 children defining top

/-- The `for child in node.iterchildren(...)` loop of `findDefs`. -/
def findDefsList (st : DefState) (ns : List XNode) (dn : Option String) (td : Bool) : DefState :=
  match ns with
  | [] => st
  | c :: rest => findDefsList (findDefs st c dn td) rest dn td

end

/-- Python `info.get("base", info.get("subs", None))`. -/
def otherOf (i : Info) : Option String :=
  match i.base with
  | some b => some b
  | none => i.subs

/-- The two propagation updates shared by both variants' `infer` bodies,
acting on the record `info` once the referenced record `otherInfo` has
been found: the `mixed`-propagation check (`if otherInfo["mixed"]:`) and
the `kind` copy (`if info.get("kind") is None and otherInfo.get("kind")`),
returning the mutated record and the number of counted changes. -/
def stepInfoXS (info otherInfo : Info) : Info × Nat :=
  let p1 : Info × Nat :=
    if truthyOB otherInfo.mixed then ({ info with mixed := some true }, 1)
    else (info, 0)
  match p1.1.kind, otherInfo.kind with
  | none, some k => ({ p1.1 with kind := some k }, p1.2 + 1)
  | _, _ => p1

/-- The full record update of `tt/xmlschema.py`'s `infer` body: the two
shared updates followed by the third check
(`if info.get("mixed", None) is None: if otherInfo.get("mixed", None): copy`). -/
def stepInfo (info otherInfo : Info) : Info × Nat :=
  let p2 := stepInfoXS info otherInfo
  match p2.1.mixed with
  | none =>
    if truthyOB otherInfo.mixed then ({ p2.1 with mixed := otherInfo.mixed }, p2.2 + 1)
    else p2
  | some _ => p2

/-- One iteration of the `for (name, info) in definitions.items():` body of
`infer` in `tt/xmlschema.py` (class `Analysis`), acting on the current
table: returns the table after the in-place mutations of `info` and the
number by which `changed` grows.  A dangling reference
(`definitions.get(otherBare, None) is None`) warns and continues. -/
def inferStep (tbl : Table) (name : String) : Table × Nat :=
  match lookupT tbl name with
  | none => (tbl, 0)
  | some info =>
    if truthyOB info.mixed then (tbl, 0)
    else
      match otherOf info with
      | none => (tbl, 0)
      | some o =>
        if o = "" then (tbl, 0)
        else
          match lookupT tbl (bareName o) with
          | none => (tbl, 0)
          | some otherInfo =>
            let s := stepInfo info otherInfo
            (updateT tbl name s.1, s.2)

/-- The loop of `infer` over a fixed list of names (the dict's keys do not
change while `infer` runs), threading the mutated table and `changed`. -/
def inferAux : List String → Table × Nat → Table × Nat
  | [], acc => acc
  | n :: rest, acc =>
    let s := inferStep acc.1 n
    inferAux rest (s.1, acc.2 + s.2)

/-- Python `infer()` of `tt/xmlschema.py`: one full scan over `definitions`. -/
def infer (t : Table) : Table × Nat :=
  inferAux (t.map Prod.fst) (t, 0)

/-- The `while True` resolution loop of `Analysis.resolve`, with explicit
fuel: run `infer`, stop at the first scan with zero changes. -/
def resolveN : Nat → Table → Table
  | 0, t => t
  | Nat.succ fuel, t =>
    let s := infer t
    if s.2 = 0 then s.1 else resolveN fuel s.1

/-- Python `Analysis.resolve`: the fuel `2 * length + 1` is proved sufficient
below (`resolveN_fixpoint`), so this equals the unbounded loop. -/
def resolve (t : Table) : Table :=
  resolveN (2 * t.length + 1) t

/-- Total of the per-round `changed` counts produced by the loop. -/
def resolveChangesN : Nat → Table → Nat
  | 0, _ => 0
  | Nat.succ fuel, t =>
    let s := infer t
    if s.2 = 0 then 0 else s.2 + resolveChangesN fuel s.1

/-- One iteration of the loop body of `infer` in `xml-schema/analysis.py`
(class `SchemaAnalysis`): the reference lookup is the raising
`definitions[other]`, modelled by `none`; there is no third
(`mixed`-copy) branch. -/
def inferStepXS (tbl : Table) (name : String) : Option (Table × Nat) :=
  match lookupT tbl name with
  | none => some (tbl, 0)
  | some info =>
    if truthyOB info.mixed then some (tbl, 0)
    else
      match otherOf info with
      | none => some (tbl, 0)
      | some o =>
        if o = "" then some (tbl, 0)
        else
          match lookupT tbl (bareName o) with
          | none => none
          | some otherInfo =>
            let s := stepInfoXS info otherInfo
            some (updateT tbl name s.1, s.2)

/-- The scan loop of `SchemaAnalysis.infer`, aborting on the first
`KeyError`. -/
def inferAuxXS : List String → Table × Nat → Option (Table × Nat)
  | [], acc => some acc
  | n :: rest, acc =>
    match inferStepXS acc.1 n with
    | none => none
    | some s => inferAuxXS rest (s.1, acc.2 + s.2)

/-- Python `infer()` of `xml-schema/analysis.py`. -/
def inferXS (t : Table) : Option (Table × Nat) :=
  inferAuxXS (t.map Prod.fst) (t, 0)

/-- The `while True` loop of `SchemaAnalysis.resolve` (fuelled): a raised
`KeyError` propagates as `none`. -/
def resolveNXS : Nat → Table → Option Table
  | 0, t => some t
  | Nat.succ fuel, t =>
    match inferXS t with
    | none => none
    | some s => if s.2 = 0 then some s.1 else resolveNXS fuel s.1

/-- Helper `repMixed` of `Analysis.interpret`. -/
def repMixed : Option Bool → String
  | none => "-----"
  | some true => "mixed"
  | some false => "pure"

/-- Helper `repKind` of `Analysis.interpret`. -/
def repKind : Option Kind → String
  | none => "-----"
  | some k => kindStr k

/-- Sort key `Analysis.eKey` (identical in both variants). -/
def eKey (x : String × Info) : String × String × String :=
  ((if x.2.tag = "simpleType" then "0" else if x.2.tag = "complexType" then "1" else x.2.tag),
   (if x.2.abstract then "" else "x"),
   x.1)

/-- Python `<=` on the 3-tuples of strings returned by `eKey`
(lexicographic). -/
def tupLe (a b : String × String × String) : Bool :=
  if a.1 < b.1 then true
  else if b.1 < a.1 then false
  else if a.2.1 < b.2.1 then true
  else if b.2.1 < a.2.1 then false
  else decide (a.2.2 < b.2.2) || (a.2.2 == b.2.2)

/-- Stable insertion of one element into a list sorted by `le`: `x` walks
past exactly the elements strictly below it, so ties keep their original
relative order. -/
def insertStable (le : (String × Info) → (String × Info) → Bool)
    (x : String × Info) : Table → Table
  | [] => [x]
  | y :: ys => if le y x && !(le x y) then y :: insertStable le x ys else x :: y :: ys

/-- Stable ascending sort (the behaviour of Python's `sorted`). -/
def sortStable (le : (String × Info) → (String × Info) → Bool) : Table → Table
  | [] => []
  | x :: xs => insertStable le x (sortStable le xs)

/-- Python `sorted(definitions.items(), key=self.eKey)` (Python's sort is a
stable ascending sort). -/
def sortedDefs (t : Table) : Table :=
  sortStable (fun a b => tupLe (eKey a) (eKey b)) t

/-- The `defs` tuple of `interpret` (identical selection in both
variants): sort by `eKey`, keep non-abstract `element` records, project
name/kind/mixed. -/
def interpretDefs (t : Table) : List (String × Option Kind × Option Bool) :=
  (sortedDefs t).filterMap (fun x =>
    if x.2.tag = "element" && !x.2.abstract then some (x.1, x.2.kind, x.2.mixed) else none)

/-- One TSV line of `Analysis.interpret` (`tt/xmlschema.py`). -/
def tsvLineTT (name : String) (kind : Option Kind) (mixed : Option Bool) : String :=
  name ++ "\t" ++ repKind kind ++ "\t" ++ repMixed mixed

/-- The TSV report of `Analysis.interpret`. -/
def tsvTT (t : Table) : String :=
  String.intercalate "\n" ((interpretDefs t).map (fun x => tsvLineTT x.1 x.2.1 x.2.2))

/-- One TSV line of `SchemaAnalysis.interpret` (`xml-schema/analysis.py`):
`f"{name}\t{kind or chr(45)...}"` — an absent kind renders as `"---"`, and
the mixed column is `"mixed" if mixed else "pure"` (truthiness, so an
absent mixed renders as `"pure"`). -/
def tsvLineXS (name : String) (kind : Option Kind) (mixed : Option Bool) : String :=
  name ++ "\t" ++ (match kind with | none => "---" | some k => kindStr k) ++ "\t"
       ++ (if truthyOB mixed then "mixed" else "pure")

/-- The TSV report of `SchemaAnalysis.interpret`. -/
def tsvXS (t : Table) : String :=
  String.intercalate "\n" ((interpretDefs t).map (fun x => tsvLineXS x.1 x.2.1 x.2.2))

/-- Dict assignment `self.overrides[name] = transRep`. -/
def upsertOvr : List (String × Option String) → String → Option String →
    List (String × Option String)
  | [], k, v => [(k, v)]
  | (n, w) :: rest, k, v =>
    if n = k then (n, v) :: rest else (n, w) :: upsertOvr rest k v

/-- The `transRep` conditional of `Analysis.interpret`. -/
def transRepOf (baseDef odef : Info) : Option String :=
  let baseKind := repKind baseDef.kind
  let baseMixed := repMixed baseDef.mixed
  let oKind := repKind odef.kind
  let oMixed := repMixed odef.mixed
  if baseKind ≠ oKind && baseMixed ≠ oMixed then
    some (baseKind ++ " " ++ baseMixed ++ " ==> " ++ oKind ++ " " ++ oMixed)
  else if baseKind ≠ oKind then some (baseKind ++ " ==> " ++ oKind)
  else if baseMixed ≠ oMixed then some (baseMixed ++ " ==> " ++ oMixed)
  else none

/-- One iteration of the override-merge loop of `Analysis.interpret`:
`odefs` is the override table being iterated (the membership test
`if name in definitions:` consults that same override table); the raising
`baseDefinitions[name]` is modelled by `none`. -/
def mergeStep (odefs : Table) (acc : Table × List (String × Option String))
    (entry : String × Info) : Option (Table × List (String × Option String)) :=
  if (lookupT odefs entry.1).isSome then
    match lookupT acc.1 entry.1 with
    | none => none
    | some baseDef =>
      let transRep := transRepOf baseDef entry.2
      let newBase := if transRep.isSome then updateT acc.1 entry.1 entry.2 else acc.1
      some (newBase, upsertOvr acc.2 entry.1 transRep)
  else some acc

/-- The override-merge loop of `Analysis.interpret`, folding `mergeStep`
over the override table's entries with short-circuit on the raised
`KeyError`. -/
def mergeGo (odefs : Table) : List (String × Info) →
    Table × List (String × Option String) →
    Option (Table × List (String × Option String))
  | [], acc => some acc
  | e :: rest, acc =>
    match mergeStep odefs acc e with
    | none => none
    | some acc1 => mergeGo odefs rest acc1

/-- The override merge of `Analysis.interpret`: iterate the override
table's entries, starting from the resolved base table and an empty
`overrides` dict. -/
def mergeOverride (baseDefs odefs : Table) : Option (Table × List (String × Option String)) :=
  mergeGo odefs odefs (baseDefs, [])

/-- Extraction call `findDefs(root, False, False)` followed by `self.resolve(definitions)`
on an initially empty state. -/
def extractResolve (root : XNode) : Table :=
  resolve (findDefs ⟨[], []⟩ root none false).definitions

/-- The document reads of `Analysis.__init__`: the file system is a map
from path to parsed root; the override branch executes
`with open(baseSchema) as fh: otree = etree.parse(fh)`, i.e. it reads the
base path again. -/
def analysisRoots (fs : String → XNode) (baseSchema : String) (override : Option String) :
    XNode × Option XNode :=
  (fs baseSchema, if override.isSome then some (fs baseSchema) else none)

/-- The interpretation pipeline of `Analysis.interpret` from the two
parsed roots: extract+resolve the base, then, when an override root is
present, extract+resolve it and merge; `none` models the `KeyError` the
merge loop can raise. -/
def interpretTT (root : XNode) (oroot : Option XNode) :
    Option (List (String × Option Kind × Option Bool) × List (String × Option String)) :=
  let baseDefs := extractResolve root
  match oroot with
  | none => some (interpretDefs baseDefs, [])
  | some oR =>
    match mergeOverride baseDefs (extractResolve oR) with
    | none => none
    | some m => some (interpretDefs m.1, m.2)

/-- Record-wise monotonicity: `mixed` once true stays true, `kind` once
set keeps its value. -/
def infoMono (i i' : Info) : Prop :=
  (i.mixed = some true → i'.mixed = some true) ∧
  (∀ k, i.kind = some k → i'.kind = some k)

/-- Table-wise monotonicity: every record of `t` survives into `t'` with
monotonically grown facts. -/
def tableMono (t t' : Table) : Prop :=
  ∀ k i, lookupT t k = some i → ∃ i', lookupT t' k = some i' ∧ infoMono i i'

/-- Every record's `mixed` field carries a defined boolean. -/
def MixedDef (t : Table) : Prop := ∀ p ∈ t, p.2.mixed ≠ none

/-- Record `n` of `t` (with facts `info`) consults the reference `o`,
whose stripped name is not a key of the table. -/
def danglingAt (t : Table) (n : String) (info : Info) (o : String) : Prop :=
  lookupT t n = some info ∧ truthyOB info.mixed = false ∧
    otherOf info = some o ∧ o ≠ "" ∧ lookupT t (bareName o) = none

/-- Scenario D base document: `element x` whose immediate child is a plain
`complexType` (so `x` resolves to kind=complex, mixed=false). -/
def treeB : XNode :=
  .mk "schema" none none none none none
    [.mk "element" (some "x") none none none none
      [.mk "complexType" none none none none none []]]

/-- Scenario D override document: `element x` whose immediate child is a
`complexType` with `mixed="true"`. -/
def treeO : XNode :=
  .mk "schema" none none none none none
    [.mk "element" (some "x") none none none none
      [.mk "complexType" none none (some "true") none none []]]

/-- A file system holding the two distinct scenario-D documents. -/
def fsD : String → XNode := fun p => if p = "override.xsd" then treeO else treeB

/-- A resolved record used in the merge counterexample tables. -/
def ibC2 : Info := ⟨"element", false, some false, some .complex, none, none⟩

/-- Base table of the merge counterexample: only `x`. -/
def baseTblC2 : Table := [("x", ibC2)]

/-- Override table of the merge counterexample: `x` and the extra `y`. -/
def oTblC2 : Table := [("x", ibC2), ("y", ibC2)]

/-- Scenario E record: `element s` with `substitutionGroup="missing"`. -/
def sInfoC3 : Info := ⟨"element", false, some false, none, some "missing", none⟩

/-- Scenario E table for the dangling-reference counterexample. -/
def tblC3 : Table := [("s", sInfoC3)]

/-- A record with a namespace-prefixed dangling reference. -/
def wInfoC3 : Info := ⟨"element", false, some false, none, some "ns:gone", none⟩

/-- Table for the dangling-reference witness. -/
def tblW3 : Table := [("t", wInfoC3)]

/-- A document declaring the name `Foo` twice with different tags. -/
def fooTree : XNode :=
  .mk "schema" none none none none none
    [.mk "element" (some "Foo") none none none none [],
     .mk "complexType" (some "Foo") none none none none []]

/-- A record with both kind and mixed unknown (for report rendering). -/
def sUnknownC8 : Info := ⟨"element", false, none, none, some "missing", none⟩

/-- C9 counterexample: record `a` has unknown mixed, known kind, and a
`base` reference to `b`. -/
def iaC9 : Info := ⟨"element", false, none, some .complex, none, some "b"⟩

/-- C9 counterexample: record `b` has explicit mixed=false. -/
def ibC9 : Info := ⟨"element", false, some false, some .complex, none, none⟩

/-- C9 counterexample table. -/
def tblC9 : Table := [("a", iaC9), ("b", ibC9)]

/-- C9 witness record: `m` refers through `base` to `n`. -/
def mW9 : Info := ⟨"element", false, some false, none, none, some "n"⟩

/-- C9 witness record: `n` has an unknown `mixed` value. -/
def nW9 : Info := ⟨"element", false, none, none, none, none⟩

/-- C9 witness table: `m` refers to `n`, both with unknown facts. -/
def tblW9 : Table := [("m", mW9), ("n", nW9)]

/-- A plain first-declaration record (first-write-wins witness). -/
def fooI : Info := ⟨"element", false, some false, none, none, none⟩

/-- A one-record converged table (mixed known true, kind known). -/
def tblW4 : Table := [("w", ⟨"element", false, some true, some .simple, none, none⟩)]

/-- Potential of one record: distance from fully known, at most 2. -/
def phiInfo (i : Info) : Nat :=
  (if i.mixed = some true then 0 else 1) + (if i.kind = none then 1 else 0)

/-- Potential of a table: sum of record potentials. -/
def phi (t : Table) : Nat :=
  (t.map (fun p => phiInfo p.2)).sum

theorem truthyOB_eq_true {m : Option Bool} : truthyOB m = true ↔ m = some true := by
  cases m with
  | none => simp [truthyOB]
  | some b => cases b <;> simp [truthyOB]

theorem truthyOB_eq_false {m : Option Bool} : truthyOB m = false ↔ m ≠ some true := by
  rw [← Bool.not_eq_true, not_iff_not]; exact truthyOB_eq_true

theorem lookupT_eq_none_iff (t : Table) (k : String) :
    lookupT t k = none ↔ k ∉ t.map Prod.fst := by
  induction t with
  | nil => simp [lookupT]
  | cons p rest ih =>
    obtain ⟨n, i⟩ := p
    simp only [lookupT, List.map_cons, List.mem_cons]
    split
    · next hn => subst hn; simp
    · next hn =>
      rw [ih]
      constructor
      · intro hnm hmem
        rcases hmem with h1 | h2
        · exact hn h1.symm
        · exact hnm h2
      · intro hnm hmem
        exact hnm (Or.inr hmem)

theorem updateT_map_fst (t : Table) (k : String) (i : Info) :
    (updateT t k i).map Prod.fst = t.map Prod.fst := by
  induction t with
  | nil => rfl
  | cons p rest ih =>
    obtain ⟨n, j⟩ := p
    simp only [updateT]
    split <;> simp [ih]

theorem updateT_self (t : Table) (k : String) (i : Info)
    (h : lookupT t k = some i) : updateT t k i = t := by
  induction t with
  | nil => rfl
  | cons p rest ih =>
    obtain ⟨n, j⟩ := p
    simp only [lookupT] at h
    simp only [updateT]
    split at h
    · next hn => cases h; simp [hn]
    · next hn => simp [hn, ih h]

theorem lookupT_updateT_ne (t : Table) (n k : String) (i : Info) (h : k ≠ n) :
    lookupT (updateT t n i) k = lookupT t k := by
  induction t with
  | nil => rfl
  | cons p rest ih =>
    obtain ⟨m, j⟩ := p
    simp only [updateT]
    split
    · next hm =>
      subst hm
      simp only [lookupT]
      split
      · next hk => exact absurd hk.symm h
      · next hk => rfl
    · next hm => simp only [lookupT]; split <;> simp [ih]

theorem lookupT_updateT_self (t : Table) (n : String) (i j : Info)
    (h : lookupT t n = some j) : lookupT (updateT t n i) n = some i := by
  induction t with
  | nil => simp [lookupT] at h
  | cons p rest ih =>
    obtain ⟨m, q⟩ := p
    simp only [lookupT] at h
    simp only [updateT]
    split at h
    · next hm => simp [lookupT, hm]
    · next hm => simp [lookupT, hm, ih h]

theorem phi_updateT (t : Table) (n : String) (i j : Info)
    (h : lookupT t n = some i) :
    phi (updateT t n j) + phiInfo i = phi t + phiInfo j := by
  induction t with
  | nil => simp [lookupT] at h
  | cons p rest ih =>
    obtain ⟨m, q⟩ := p
    simp only [lookupT] at h
    simp only [updateT]
    split at h
    · next hm =>
      cases h
      simp only [hm, if_pos]
      simp [phi]
      omega
    · next hm =>
      have := ih h
      simp only [hm, if_neg, not_false_iff]
      simp only [phi, List.map_cons, List.sum_cons] at this ⊢
      omega

theorem infoMono_refl (i : Info) : infoMono i i := ⟨fun h => h, fun _ h => h⟩

theorem infoMono_trans {a b c : Info} (h1 : infoMono a b) (h2 : infoMono b c) :
    infoMono a c :=
  ⟨fun h => h2.1 (h1.1 h), fun k h => h2.2 k (h1.2 k h)⟩

theorem tableMono_refl (t : Table) : tableMono t t :=
  fun _ i h => ⟨i, h, infoMono_refl i⟩

theorem tableMono_trans {a b c : Table} (h1 : tableMono a b) (h2 : tableMono b c) :
    tableMono a c := by
  intro k i h
  obtain ⟨i1, hl1, hm1⟩ := h1 k i h
  obtain ⟨i2, hl2, hm2⟩ := h2 k i1 hl1
  exact ⟨i2, hl2, infoMono_trans hm1 hm2⟩

theorem stepInfoXS_mixed_eq (info otherInfo : Info) :
    (stepInfoXS info otherInfo).1.mixed =
      (if truthyOB otherInfo.mixed then some true else info.mixed) := by
  unfold stepInfoXS
  by_cases ho : truthyOB otherInfo.mixed = true <;>
    simp [ho] <;>
    cases hk : info.kind <;> cases hok : otherInfo.kind <;> simp [hk, hok]

theorem stepInfoXS_kind_eq (info otherInfo : Info) :
    (stepInfoXS info otherInfo).1.kind =
      (match info.kind, otherInfo.kind with
       | none, some k => some k
       | _, _ => info.kind) := by
  unfold stepInfoXS
  by_cases ho : truthyOB otherInfo.mixed = true <;>
    simp [ho] <;>
    cases hk : info.kind <;> cases hok : otherInfo.kind <;> simp [hk, hok]

theorem stepInfoXS_mono (info otherInfo : Info) :
    infoMono info (stepInfoXS info otherInfo).1 := by
  constructor
  · intro h
    rw [stepInfoXS_mixed_eq]
    split <;> simp [h]
  · intro k h
    rw [stepInfoXS_kind_eq, h]

theorem stepInfoXS_phi (info otherInfo : Info) (h : truthyOB info.mixed = false) :
    phiInfo (stepInfoXS info otherInfo).1 + (stepInfoXS info otherInfo).2 = phiInfo info := by
  have hm : info.mixed ≠ some true := truthyOB_eq_false.mp h
  unfold stepInfoXS
  by_cases ho : truthyOB otherInfo.mixed = true <;>
    simp [ho] <;>
    cases hk : info.kind <;> cases hok : otherInfo.kind <;>
      simp [hk, hok, phiInfo, hm]

theorem stepInfoXS_zero (info otherInfo : Info)
    (h : (stepInfoXS info otherInfo).2 = 0) : (stepInfoXS info otherInfo).1 = info := by
  unfold stepInfoXS at h ⊢
  by_cases ho : truthyOB otherInfo.mixed = true <;>
    simp [ho] at h ⊢ <;>
    cases hk : info.kind <;> cases hok : otherInfo.kind <;>
      simp [hk, hok] at h ⊢

theorem stepInfo_eq (info otherInfo : Info) :
    stepInfo info otherInfo = stepInfoXS info otherInfo := by
  unfold stepInfo
  cases hm : (stepInfoXS info otherInfo).1.mixed with
  | some b => simp [hm]
  | none =>
    have hmx := stepInfoXS_mixed_eq info otherInfo
    rw [hm] at hmx
    by_cases ho : truthyOB otherInfo.mixed = true
    · rw [if_pos ho] at hmx; cases hmx
    · simp only [Bool.not_eq_true] at ho
      simp [hm, ho]

theorem stepInfoXS_not_truthy (info otherInfo : Info)
    (ho : truthyOB otherInfo.mixed = false) :
    stepInfoXS info otherInfo =
      (match info.kind, otherInfo.kind with
       | none, some k => ({ info with kind := some k }, 1)
       | _, _ => (info, 0)) := by
  unfold stepInfoXS
  simp [ho]

theorem inferStep_cases (t : Table) (n : String) :
    inferStep t n = (t, 0) ∨
    ∃ info o otherInfo,
      lookupT t n = some info ∧ truthyOB info.mixed = false ∧
      otherOf info = some o ∧ o ≠ "" ∧
      lookupT t (bareName o) = some otherInfo ∧
      inferStep t n =
        (updateT t n (stepInfo info otherInfo).1, (stepInfo info otherInfo).2) := by
  unfold inferStep
  cases h1 : lookupT t n with
  | none => exact Or.inl rfl
  | some info =>
    by_cases h2 : truthyOB info.mixed = true
    · left; simp [h2]
    · simp only [Bool.not_eq_true] at h2
      simp only [h2, Bool.false_eq_true, if_false]
      cases h3 : otherOf info with
      | none => exact Or.inl rfl
      | some o =>
        by_cases h4 : o = ""
        · left; simp [h4]
        · simp only [h4, if_false]
          cases h5 : lookupT t (bareName o) with
          | none => exact Or.inl rfl
          | some otherInfo =>
            right
            exact ⟨info, o, otherInfo, rfl, h2, h3, h4, h5, rfl⟩

theorem inferStep_phi (t : Table) (n : String) :
    phi (inferStep t n).1 + (inferStep t n).2 = phi t := by
  rcases inferStep_cases t n with h | ⟨info, o, otherInfo, h1, h2, _, _, _, heq⟩
  · rw [h]; simp
  · rw [heq]
    have ha := phi_updateT t n info (stepInfo info otherInfo).1 h1
    have hb := stepInfoXS_phi info otherInfo h2
    rw [← stepInfo_eq] at hb
    simp only at ha hb ⊢
    omega

theorem inferStep_mono (t : Table) (n : String) : tableMono t (inferStep t n).1 := by
  rcases inferStep_cases t n with h | ⟨info, o, otherInfo, h1, _, _, _, _, heq⟩
  · rw [h]; exact tableMono_refl t
  · rw [heq]
    intro k i hk
    by_cases hkn : k = n
    · subst hkn
      have hio : i = info := by
        rw [hk] at h1
        exact Option.some.inj h1
      refine ⟨(stepInfo info otherInfo).1, ?_, ?_⟩
      · exact lookupT_updateT_self t k (stepInfo info otherInfo).1 i hk
      · rw [hio, stepInfo_eq]; exact stepInfoXS_mono info otherInfo
    · exact ⟨i, by rw [lookupT_updateT_ne t n k _ hkn]; exact hk, infoMono_refl i⟩

theorem inferStep_zero (t : Table) (n : String)
    (h : (inferStep t n).2 = 0) : (inferStep t n).1 = t := by
  rcases inferStep_cases t n with h0 | ⟨info, o, otherInfo, h1, _, _, _, _, heq⟩
  · rw [h0]
  · rw [heq] at h ⊢
    simp only at h ⊢
    rw [stepInfo_eq] at h ⊢
    rw [stepInfoXS_zero info otherInfo h]
    exact updateT_self t n info h1

theorem inferStep_map_fst (t : Table) (n : String) :
    ((inferStep t n).1).map Prod.fst = t.map Prod.fst := by
  rcases inferStep_cases t n with h | ⟨info, o, otherInfo, _, _, _, _, _, heq⟩
  · rw [h]
  · rw [heq]; exact updateT_map_fst t n _

theorem inferStep_lookup_ne (t : Table) (m k : String) (h : k ≠ m) :
    lookupT (inferStep t m).1 k = lookupT t k := by
  rcases inferStep_cases t m with h0 | ⟨info, o, otherInfo, _, _, _, _, _, heq⟩
  · rw [h0]
  · rw [heq]; exact lookupT_updateT_ne t m k _ h

theorem inferStep_lookup_none (t : Table) (m k : String)
    (h : lookupT t k = none) : lookupT (inferStep t m).1 k = none := by
  rw [lookupT_eq_none_iff] at h ⊢
  rw [inferStep_map_fst]
  exact h

theorem inferStep_dangling (t : Table) (n : String) (info : Info) (o : String)
    (h : danglingAt t n info o) : inferStep t n = (t, 0) := by
  obtain ⟨h1, h2, h3, h4, h5⟩ := h
  unfold inferStep
  rw [h1]
  simp [h2, h3, h4, h5]

theorem danglingAt_inferStep (t : Table) (n m : String) (info : Info) (o : String)
    (h : danglingAt t n info o) : danglingAt (inferStep t m).1 n info o := by
  by_cases hm : m = n
  · subst hm
    rw [inferStep_dangling t m info o h]
    exact h
  · obtain ⟨h1, h2, h3, h4, h5⟩ := h
    refine ⟨?_, h2, h3, h4, ?_⟩
    · rw [inferStep_lookup_ne t m n (fun hc => hm hc.symm)]
      exact h1
    · exact inferStep_lookup_none t m _ h5

theorem inferAux_phi (L : List String) : ∀ t c,
    phi (inferAux L (t, c)).1 + (inferAux L (t, c)).2 = phi t + c := by
  induction L with
  | nil => intro t c; simp [inferAux]
  | cons n rest ih =>
    intro t c
    simp only [inferAux]
    have h1 := inferStep_phi t n
    have h2 := ih (inferStep t n).1 (c + (inferStep t n).2)
    omega

theorem inferAux_mono (L : List String) : ∀ t c, tableMono t (inferAux L (t, c)).1 := by
  induction L with
  | nil => intro t c; exact tableMono_refl t
  | cons n rest ih =>
    intro t c
    simp only [inferAux]
    exact tableMono_trans (inferStep_mono t n) (ih (inferStep t n).1 (c + (inferStep t n).2))

theorem inferAux_count_le (L : List String) : ∀ t c, c ≤ (inferAux L (t, c)).2 := by
  induction L with
  | nil => intro t c; simp [inferAux]
  | cons n rest ih =>
    intro t c
    simp only [inferAux]
    have := ih (inferStep t n).1 (c + (inferStep t n).2)
    omega

theorem inferAux_zero (L : List String) : ∀ t c,
    (inferAux L (t, c)).2 = c → (inferAux L (t, c)).1 = t := by
  induction L with
  | nil => intro t c _; simp [inferAux]
  | cons n rest ih =>
    intro t c h
    simp only [inferAux] at h ⊢
    have hle := inferAux_count_le rest (inferStep t n).1 (c + (inferStep t n).2)
    have hz : (inferStep t n).2 = 0 := by omega
    have ht : (inferStep t n).1 = t := inferStep_zero t n hz
    rw [ht, hz] at h ⊢
    exact ih t c (by simpa using h)

theorem inferAux_map_fst (L : List String) : ∀ t c,
    ((inferAux L (t, c)).1).map Prod.fst = t.map Prod.fst := by
  induction L with
  | nil => intro t c; rfl
  | cons n rest ih =>
    intro t c
    simp only [inferAux]
    rw [ih (inferStep t n).1 (c + (inferStep t n).2)]
    exact inferStep_map_fst t n

theorem danglingAt_inferAux (L : List String) (n : String) (info : Info) (o : String) :
    ∀ t c, danglingAt t n info o → danglingAt (inferAux L (t, c)).1 n info o := by
  induction L with
  | nil => intro t c h; exact h
  | cons m rest ih =>
    intro t c h
    simp only [inferAux]
    exact ih (inferStep t m).1 (c + (inferStep t m).2) (danglingAt_inferStep t n m info o h)

theorem infer_phi (t : Table) : phi (infer t).1 + (infer t).2 = phi t := by
  have := inferAux_phi (t.map Prod.fst) t 0
  simpa [infer] using this

theorem infer_mono (t : Table) : tableMono t (infer t).1 :=
  inferAux_mono (t.map Prod.fst) t 0

theorem infer_zero (t : Table) (h : (infer t).2 = 0) : (infer t).1 = t :=
  inferAux_zero (t.map Prod.fst) t 0 h

theorem infer_map_fst (t : Table) : ((infer t).1).map Prod.fst = t.map Prod.fst :=
  inferAux_map_fst (t.map Prod.fst) t 0

theorem danglingAt_infer (t : Table) (n : String) (info : Info) (o : String)
    (h : danglingAt t n info o) : danglingAt (infer t).1 n info o :=
  danglingAt_inferAux (t.map Prod.fst) n info o t 0 h

theorem resolveN_mono (fuel : Nat) : ∀ t : Table, tableMono t (resolveN fuel t) := by
  induction fuel with
  | zero => intro t; exact tableMono_refl t
  | succ f ih =>
    intro t
    simp only [resolveN]
    by_cases h : (infer t).2 = 0
    · simp only [h, if_pos]
      exact infer_mono t
    · simp only [h, if_neg, not_false_iff]
      exact tableMono_trans (infer_mono t) (ih (infer t).1)

theorem resolveN_fix (fuel : Nat) : ∀ t : Table, phi t < fuel →
    (infer (resolveN fuel t)).2 = 0 := by
  induction fuel with
  | zero => intro t h; omega
  | succ f ih =>
    intro t h
    simp only [resolveN]
    by_cases h0 : (infer t).2 = 0
    · simp only [h0, if_pos]
      rw [infer_zero t h0]
      exact h0
    · simp only [h0, if_neg, not_false_iff]
      apply ih
      have := infer_phi t
      omega

theorem resolveChangesN_le_phi (fuel : Nat) : ∀ t : Table,
    resolveChangesN fuel t ≤ phi t := by
  induction fuel with
  | zero => intro t; simp [resolveChangesN]
  | succ f ih =>
    intro t
    simp only [resolveChangesN]
    by_cases h : (infer t).2 = 0
    · simp [h]
    · simp only [h, if_neg, not_false_iff]
      have h1 := infer_phi t
      have h2 := ih (infer t).1
      omega

theorem phiInfo_le_two (i : Info) : phiInfo i ≤ 2 := by
  unfold phiInfo
  split <;> split <;> omega

theorem phi_le_two_length (t : Table) : phi t ≤ 2 * t.length := by
  induction t with
  | nil => simp [phi]
  | cons p rest ih =>
    have := phiInfo_le_two p.2
    simp only [phi, List.map_cons, List.sum_cons, List.length_cons] at ih ⊢
    omega

theorem resolve_fix (t : Table) : (infer (resolve t)).2 = 0 := by
  unfold resolve
  exact resolveN_fix (2 * t.length + 1) t (by have := phi_le_two_length t; omega)

theorem resolveN_of_fix (fuel : Nat) (t : Table) (h : (infer t).2 = 0) :
    resolveN (fuel + 1) t = t := by
  simp only [resolveN, h, if_pos]
  exact infer_zero t h

theorem resolve_resolve (t : Table) : resolve (resolve t) = resolve t := by
  have h := resolve_fix t
  unfold resolve
  exact resolveN_of_fix (2 * (resolve t).length) (resolve t) h

theorem danglingAt_resolveN (fuel : Nat) (n : String) (info : Info) (o : String) :
    ∀ t : Table, danglingAt t n info o → danglingAt (resolveN fuel t) n info o := by
  induction fuel with
  | zero => intro t h; exact h
  | succ f ih =>
    intro t h
    simp only [resolveN]
    by_cases h0 : (infer t).2 = 0
    · simp only [h0, if_pos]
      exact danglingAt_infer t n info o h
    · simp only [h0, if_neg, not_false_iff]
      exact ih (infer t).1 (danglingAt_infer t n info o h)

theorem inferStepXS_some (t : Table) (n : String) (r : Table × Nat)
    (h : inferStepXS t n = some r) : inferStep t n = r := by
  unfold inferStepXS at h
  unfold inferStep
  cases h1 : lookupT t n with
  | none => rw [h1] at h; cases h; rfl
  | some info =>
    rw [h1] at h
    by_cases h2 : truthyOB info.mixed = true
    · simp only [h2, if_pos] at h ⊢
      cases h; rfl
    · simp only [Bool.not_eq_true] at h2
      simp only [h2, Bool.false_eq_true, if_false] at h ⊢
      cases h3 : otherOf info with
      | none => rw [h3] at h; cases h; rfl
      | some o =>
        rw [h3] at h
        by_cases h4 : o = ""
        · simp only [h4, if_pos] at h ⊢
          cases h; rfl
        · simp only [h4, if_neg, not_false_iff] at h ⊢
          cases h5 : lookupT t (bareName o) with
          | none => rw [h5] at h; cases h
          | some otherInfo =>
            rw [h5] at h
            cases h
            simp [stepInfo_eq]

theorem inferAuxXS_some (L : List String) : ∀ acc r,
    inferAuxXS L acc = some r → inferAux L acc = r := by
  induction L with
  | nil => intro acc r h; cases h; rfl
  | cons n rest ih =>
    intro acc r h
    simp only [inferAuxXS] at h
    simp only [inferAux]
    cases hs : inferStepXS acc.1 n with
    | none => rw [hs] at h; cases h
    | some s =>
      rw [hs] at h
      rw [inferStepXS_some acc.1 n s hs]
      exact ih (s.1, acc.2 + s.2) r h

theorem inferXS_some (t : Table) (r : Table × Nat)
    (h : inferXS t = some r) : infer t = r :=
  inferAuxXS_some (t.map Prod.fst) (t, 0) r h

theorem resolveNXS_halt (fuel : Nat) : ∀ t : Table, phi t < fuel →
    resolveNXS fuel t = none ∨
    ∃ t', resolveNXS fuel t = some t' ∧ inferXS t' = some (t', 0) := by
  induction fuel with
  | zero => intro t h; omega
  | succ f ih =>
    intro t h
    simp only [resolveNXS]
    cases hx : inferXS t with
    | none => exact Or.inl rfl
    | some s =>
      have hb : infer t = s := inferXS_some t s hx
      by_cases h0 : s.2 = 0
      · right
        refine ⟨s.1, by simp [h0], ?_⟩
        have hz : (infer t).2 = 0 := by rw [hb]; exact h0
        have ht : (infer t).1 = t := infer_zero t hz
        have hs1 : s.1 = t := by rw [← hb]; exact ht
        rw [hs1, hx]
        have : s = (t, 0) := by
          cases s with
          | mk a b => simp only at hs1 h0; rw [hs1, h0]
        rw [this]
      · simp only [h0, if_neg, not_false_iff]
        apply ih
        have := infer_phi t
        rw [hb] at this
        omega

theorem bump_lookupCnt (l : List (String × Nat)) (k : String) :
    lookupCnt (bump l k) k = some ((lookupCnt l k).getD 0 + 1) := by
  induction l with
  | nil => simp [bump, lookupCnt]
  | cons p rest ih =>
    obtain ⟨n, c⟩ := p
    simp only [bump]
    split
    · next hn => simp [lookupCnt, hn]
    · next hn => simp [lookupCnt, hn, ih]

theorem registerName_present (st : DefState) (tag nm : String)
    (a m s : Option String) (i : Info)
    (hnm : nm ≠ "") (htag : notInteresting.contains tag = false)
    (h : lookupT st.definitions nm = some i) :
    registerName st tag (some nm) a m s =
      { st with redefinitions := bump st.redefinitions nm } := by
  unfold registerName
  have ht : truthyOS (some nm) = true := by simp [truthyOS, hnm]
  rw [ht, if_pos rfl, htag]
  simp only [Bool.false_eq_true, if_false]
  have : (some nm : Option String).getD "" = nm := rfl
  rw [this, h]
  simp

theorem registerName_absent (st : DefState) (tag nm : String)
    (a m s : Option String)
    (hnm : nm ≠ "") (htag : notInteresting.contains tag = false)
    (h : lookupT st.definitions nm = none) :
    registerName st tag (some nm) a m s =
      { st with definitions := st.definitions ++
          [(nm, ⟨tag, a = some "true", some (m = some "true"), none, s, none⟩)] } := by
  unfold registerName
  have ht : truthyOS (some nm) = true := by simp [truthyOS, hnm]
  rw [ht, if_pos rfl, htag]
  simp only [Bool.false_eq_true, if_false]
  have hg : (some nm : Option String).getD "" = nm := rfl
  rw [hg, h]
  simp

theorem lookupT_mem (t : Table) (k : String) (i : Info)
    (h : lookupT t k = some i) : (k, i) ∈ t := by
  induction t with
  | nil => simp [lookupT] at h
  | cons p rest ih =>
    obtain ⟨n, j⟩ := p
    simp only [lookupT] at h
    split at h
    · next hn => cases h; subst hn; exact List.mem_cons_self _ _
    · next hn => exact List.mem_cons_of_mem _ (ih h)

theorem mixedDef_updateT (t : Table) (n : String) (j : Info)
    (hj : j.mixed ≠ none) (h : MixedDef t) : MixedDef (updateT t n j) := by
  induction t with
  | nil => intro p hp; simp [updateT] at hp
  | cons q rest ih =>
    obtain ⟨m, i⟩ := q
    intro p hp
    simp only [updateT] at hp
    split at hp
    · rcases List.mem_cons.mp hp with h1 | h2
      · subst h1; exact hj
      · exact h p (List.mem_cons_of_mem _ h2)
    · rcases List.mem_cons.mp hp with h1 | h2
      · subst h1; exact h (m, i) (List.mem_cons_self _ _)
      · exact ih (fun q hq => h q (List.mem_cons_of_mem _ hq)) p h2

theorem mixedDef_modifyT (t : Table) (k : String) (f : Info → Info)
    (hf : ∀ i, i.mixed ≠ none → (f i).mixed ≠ none) (h : MixedDef t) :
    MixedDef (modifyT t k f) := by
  induction t with
  | nil => intro p hp; simp [modifyT] at hp
  | cons q rest ih =>
    obtain ⟨m, i⟩ := q
    intro p hp
    simp only [modifyT] at hp
    split at hp
    · rcases List.mem_cons.mp hp with h1 | h2
      · subst h1; exact hf i (h (m, i) (List.mem_cons_self _ _))
      · exact h p (List.mem_cons_of_mem _ h2)
    · rcases List.mem_cons.mp hp with h1 | h2
      · subst h1; exact h (m, i) (List.mem_cons_self _ _)
      · exact ih (fun q hq => h q (List.mem_cons_of_mem _ hq)) p h2

theorem mixedDef_append (t : Table) (x : String × Info)
    (hx : x.2.mixed ≠ none) (h : MixedDef t) : MixedDef (t ++ [x]) := by
  intro p hp
  rcases List.mem_append.mp hp with h1 | h2
  · exact h p h1
  · rw [List.mem_singleton.mp h2]
    exact hx

theorem mixedDef_contextStep (st : DefState) (dn : Option String) (td : Bool)
    (tag : String) (mixed : Bool) (baseA : Option String)
    (h : MixedDef st.definitions) :
    MixedDef (contextStep st dn td tag mixed baseA).definitions := by
  unfold contextStep
  by_cases h1 : truthyOS dn = true
  case neg => simp only [Bool.not_eq_true] at h1; simp only [h1]; exact h
  simp only [h1, if_pos]
  by_cases h2 : td = true
  case pos =>
    simp only [h2, if_pos]
    by_cases h3 : typesSet.contains tag = true
    case neg => simp only [Bool.not_eq_true] at h3; simp only [h3]; exact h
    simp only [h3, if_pos]
    by_cases h4 : mixed = true
    · simp only [h4, if_pos]
      exact mixedDef_modifyT _ _ _ (fun i hi => by simp)
        (mixedDef_modifyT _ _ _ (fun i hi => hi) h)
    · simp only [Bool.not_eq_true] at h4
      simp only [h4]
      exact mixedDef_modifyT _ _ _ (fun i hi => hi) h
  case neg =>
    simp only [Bool.not_eq_true] at h2
    simp only [h2]
    by_cases h5 : tag = "extension"
    case neg => simp only [h5, if_neg, not_false_iff]; exact h
    simp only [h5, if_pos]
    by_cases h6 : truthyOS baseA = true
    · simp only [h6, if_pos]
      exact mixedDef_modifyT _ _ _ (fun i hi => hi) h
    · simp only [Bool.not_eq_true] at h6
      simp only [h6]
      exact h

theorem mixedDef_registerName (st : DefState) (tag : String)
    (nameA abstractA mixedA subsA : Option String)
    (h : MixedDef st.definitions) :
    MixedDef (registerName st tag nameA abstractA mixedA subsA).definitions := by
  unfold registerName
  by_cases h1 : truthyOS nameA = true
  case neg => simp only [Bool.not_eq_true] at h1; simp only [h1]; exact h
  simp only [h1, if_pos]
  by_cases h2 : notInteresting.contains tag = true
  · simp only [h2, if_pos]; exact h
  · simp only [Bool.not_eq_true] at h2
    simp only [h2, Bool.false_eq_true, if_false]
    by_cases h3 : (lookupT st.definitions (nameA.getD "")).isSome = true
    · simp only [h3, if_pos]; exact h
    · simp only [Bool.not_eq_true] at h3
      simp only [h3, Bool.false_eq_true, if_false]
      exact mixedDef_append _ _ (by simp) h

mutual

theorem mixedDef_findDefs (st : DefState) (n : XNode) (dn : Option String) (td : Bool)
    (h : MixedDef st.definitions) : MixedDef (findDefs st n dn td).definitions :=
  match n with
  | .mk tag nameA abstractA mixedA subsA baseA children =>
    mixedDef_findDefsList _ children _ _
      (mixedDef_registerName _ tag nameA abstractA mixedA subsA
        (mixedDef_contextStep st dn td tag (mixedA = some "true") baseA h))

theorem mixedDef_findDefsList (st : DefState) (ns : List XNode) (dn : Option String)
    (td : Bool) (h : MixedDef st.definitions) :
    MixedDef (findDefsList st ns dn td).definitions :=
  match ns with
  | [] => h
  | c :: rest =>
    mixedDef_findDefsList _ rest _ _ (mixedDef_findDefs st c dn td h)

end

theorem mixedDef_inferStep (t : Table) (n : String)
    (h : MixedDef t) : MixedDef (inferStep t n).1 := by
  rcases inferStep_cases t n with h0 | ⟨info, o, otherInfo, h1, _, _, _, _, heq⟩
  · rw [h0]; exact h
  · rw [heq]
    apply mixedDef_updateT _ _ _ _ h
    rw [stepInfo_eq, stepInfoXS_mixed_eq]
    split
    · simp
    · exact h (n, info) (lookupT_mem t n info h1)

theorem mixedDef_inferAux (L : List String) : ∀ t c,
    MixedDef t → MixedDef (inferAux L (t, c)).1 := by
  induction L with
  | nil => intro t c h; exact h
  | cons n rest ih =>
    intro t c h
    simp only [inferAux]
    exact ih (inferStep t n).1 (c + (inferStep t n).2) (mixedDef_inferStep t n h)

theorem mixedDef_infer (t : Table) (h : MixedDef t) : MixedDef (infer t).1 :=
  mixedDef_inferAux (t.map Prod.fst) t 0 h

theorem mixedDef_resolveN (fuel : Nat) : ∀ t : Table,
    MixedDef t → MixedDef (resolveN fuel t) := by
  induction fuel with
  | zero => intro t h; exact h
  | succ f ih =>
    intro t h
    simp only [resolveN]
    by_cases h0 : (infer t).2 = 0
    · simp only [h0, if_pos]
      exact mixedDef_infer t h
    · simp only [h0, if_neg, not_false_iff]
      exact ih (infer t).1 (mixedDef_infer t h)

theorem mixedDef_resolve (t : Table) (h : MixedDef t) : MixedDef (resolve t) :=
  mixedDef_resolveN (2 * t.length + 1) t h

theorem lookupT_append_right (t : Table) (nm : String) (j : Info)
    (h : lookupT t nm = none) : lookupT (t ++ [(nm, j)]) nm = some j := by
  induction t with
  | nil => simp [lookupT]
  | cons p rest ih =>
    obtain ⟨n, i⟩ := p
    simp only [lookupT] at h
    split at h
    · cases h
    · next hn =>
      simp only [List.cons_append, lookupT, hn, if_neg, not_false_iff]
      exact ih h

/-- C1: `Analysis.__init__` reads the override document from the base
schema's path (`with open(baseSchema)` in the override branch), so the two
parsed roots always coincide and the pipeline never produces a transition;
had the override been parsed from its own path (third and fourth
conjuncts, feeding the override tree directly), the scenario-D merge would
produce the transition `"pure ==> mixed"` for `x` and report `x` as
mixed. -/
theorem c1_override_parsed_from_base_path :
    (∀ (fs : String → XNode) (b o : String),
      analysisRoots fs b (some o) = (fs b, some (fs b))) ∧
    analysisRoots fsD "base.xsd" (some "override.xsd") = (treeB, some treeB) ∧
    (interpretTT treeB (some treeB)).map Prod.snd = some [("x", none)] ∧
    (interpretTT treeB (some treeO)).map Prod.snd =
      some [("x", some "pure ==> mixed")] ∧
    (interpretTT treeB (some treeO)).map Prod.fst =
      some [("x", some Kind.complex, some true)] := by
  refine ⟨fun fs b o => rfl, rfl, by decide, by decide, by decide⟩

/-- C2: the merge loop's membership test `if name in definitions:`
consults the override table itself (vacuously true), so the unguarded
`baseDefinitions[name]` raises a `KeyError` on a name present only in the
override table: with base table `{x}` and override table `{x, y}`, the
merge fails (`none`) instead of skipping `y`. -/
theorem c2_merge_raises_on_override_only_name :
    lookupT baseTblC2 "y" = none ∧
    lookupT oTblC2 "y" = some ibC2 ∧
    mergeOverride baseTblC2 oTblC2 = none :=
  ⟨by decide, by decide, by decide⟩

/-- C3 counterexample: in `xml-schema/analysis.py` the reference lookup is
the raising `definitions[other]`, so on the table `{s ↦ subs "missing"}`
one scan of `infer` (and hence `resolve`) raises a `KeyError` (`none`)
rather than warning and continuing. -/
theorem c3_xs_dangling_raises :
    lookupT tblC3 (bareName "missing") = none ∧
    inferXS tblC3 = none ∧
    resolveNXS 1 tblC3 = none :=
  ⟨by decide, by decide, by decide⟩

/-- C3 amended: in `tt/xmlschema.py` a record whose consulted reference
strips to a name absent from the table is skipped non-fatally — its scan
iteration leaves the table unchanged and counts zero changes, and across
any number of resolution rounds the record keeps exactly its entry
(fields unresolved). -/
theorem c3_tt_dangling_nonfatal (t : Table) (n : String) (info : Info) (o : String)
    (h : danglingAt t n info o) :
    inferStep t n = (t, 0) ∧ ∀ fuel, lookupT (resolveN fuel t) n = some info := by
  refine ⟨inferStep_dangling t n info o h, fun fuel => ?_⟩
  exact (danglingAt_resolveN fuel n info o t h).1

/-- C3 witness: the dangling record `t ↦ subs "ns:gone"` is untouched by
the tt resolver. -/
theorem c3_tt_dangling_nonfatal_witness :
    inferStep tblW3 "t" = (tblW3, 0) ∧
    ∀ fuel, lookupT (resolveN fuel tblW3) "t" = some wInfoC3 :=
  c3_tt_dangling_nonfatal tblW3 "t" wInfoC3 "ns:gone"
    ⟨by decide, by decide, by decide, by decide, by decide⟩

/-- C4: resolution is monotone on every record: across any number of
rounds of the tt resolver, and across a successful scan of the xml-schema
resolver, `mixed` once true stays true and `kind` once set keeps its
value. -/
theorem c4_resolution_monotone :
    (∀ (t : Table) (fuel : Nat) (k : String) (i : Info),
      lookupT t k = some i →
      ∃ i', lookupT (resolveN fuel t) k = some i' ∧
        (i.mixed = some true → i'.mixed = some true) ∧
        (∀ kd, i.kind = some kd → i'.kind = some kd)) ∧
    (∀ (t : Table) (r : Table × Nat), inferXS t = some r →
      ∀ (k : String) (i : Info), lookupT t k = some i →
      ∃ i', lookupT r.1 k = some i' ∧
        (i.mixed = some true → i'.mixed = some true) ∧
        (∀ kd, i.kind = some kd → i'.kind = some kd)) := by
  constructor
  · intro t fuel k i h
    obtain ⟨i', hl, hm⟩ := resolveN_mono fuel t k i h
    exact ⟨i', hl, hm.1, hm.2⟩
  · intro t r hx k i h
    have hb := inferXS_some t r hx
    obtain ⟨i', hl, hm⟩ := infer_mono t k i h
    rw [hb] at hl
    exact ⟨i', hl, hm.1, hm.2⟩

/-- C4 witness: the already-known record `w` keeps its facts across a
resolution round. -/
theorem c4_resolution_monotone_witness :
    ∃ i', lookupT (resolveN 1 tblW4) "w" = some i' ∧
      ((⟨"element", false, some true, some .simple, none, none⟩ : Info).mixed = some true →
        i'.mixed = some true) ∧
      (∀ kd, (⟨"element", false, some true, some .simple, none, none⟩ : Info).kind = some kd →
        i'.kind = some kd) :=
  c4_resolution_monotone.1 tblW4 1 "w" _ (by decide)

/-- C5: the resolution loop halts: the tt resolver reaches a round with
zero changes within `2·|table|+1` scans, the total of the per-round change
counts is bounded by `2·|table|`, and the xml-schema resolver within the
same fuel either raises (dangling reference) or reaches a zero-change
round — so no table makes either loop run forever. -/
theorem c5_resolution_terminates :
    (∀ t : Table, (infer (resolveN (2 * t.length + 1) t)).2 = 0) ∧
    (∀ (t : Table) (fuel : Nat), resolveChangesN fuel t ≤ 2 * t.length) ∧
    (∀ t : Table, resolveNXS (2 * t.length + 1) t = none ∨
      ∃ t', resolveNXS (2 * t.length + 1) t = some t' ∧
        inferXS t' = some (t', 0)) := by
  refine ⟨?_, ?_, ?_⟩
  · intro t
    exact resolveN_fix (2 * t.length + 1) t (by have := phi_le_two_length t; omega)
  · intro t fuel
    have h1 := resolveChangesN_le_phi fuel t
    have h2 := phi_le_two_length t
    omega
  · intro t
    exact resolveNXS_halt (2 * t.length + 1) t (by have := phi_le_two_length t; omega)

/-- C6: running the resolver again on a converged table performs one scan
with zero changes and returns every record unchanged: `infer` at a
resolved table is the identity with count 0, `resolve` is idempotent, and
a successful xml-schema scan of a resolved table likewise returns it
unchanged with count 0. -/
theorem c6_resolve_idempotent :
    ∀ t : Table,
      infer (resolve t) = (resolve t, 0) ∧
      resolve (resolve t) = resolve t ∧
      (∀ r : Table × Nat, inferXS (resolve t) = some r → r = (resolve t, 0)) := by
  intro t
  have hfix := resolve_fix t
  have h2 := infer_zero (resolve t) hfix
  have h1 : infer (resolve t) = (resolve t, 0) := by
    cases he : infer (resolve t) with
    | mk a b =>
      rw [he] at hfix h2
      simp only at hfix h2
      rw [hfix, h2]
  refine ⟨h1, resolve_resolve t, fun r hr => ?_⟩
  have := inferXS_some (resolve t) r hr
  rw [h1] at this
  exact this.symm

/-- C6 witness: the converged one-record table is a fixed point. -/
theorem c6_resolve_idempotent_witness :
    resolve (resolve tblW4) = resolve tblW4 ∧
    ((tblW4, 0) : Table × Nat) = (resolve tblW4, 0) :=
  ⟨(c6_resolve_idempotent tblW4).2.1,
   (c6_resolve_idempotent tblW4).2.2 (tblW4, 0) (by decide)⟩

/-- C7: extraction is first-write-wins: registering an already-present
name leaves the whole definitions table unchanged and increments that
name's redefinition counter; concretely, declaring `Foo` first as an
`element` and again as a `complexType` keeps the first record and leaves
the counter at 1. -/
theorem c7_first_write_wins :
    (∀ (st : DefState) (tag nm : String) (a m s : Option String) (i : Info),
      nm ≠ "" → notInteresting.contains tag = false →
      lookupT st.definitions nm = some i →
      (registerName st tag (some nm) a m s).definitions = st.definitions ∧
      lookupCnt (registerName st tag (some nm) a m s).redefinitions nm =
        some ((lookupCnt st.redefinitions nm).getD 0 + 1)) ∧
    (findDefs ⟨[], []⟩ fooTree none false).definitions = [("Foo", fooI)] ∧
    (findDefs ⟨[], []⟩ fooTree none false).redefinitions = [("Foo", 1)] := by
  refine ⟨?_, by decide, by decide⟩
  intro st tag nm a m s i hnm htag h
  rw [registerName_present st tag nm a m s i hnm htag h]
  exact ⟨rfl, bump_lookupCnt st.redefinitions nm⟩

/-- C7 witness: re-registering `Foo` over a one-record table keeps the
record and sets the counter to 1. -/
theorem c7_first_write_wins_witness :
    (registerName ⟨[("Foo", fooI)], []⟩ "complexType" (some "Foo") none none none).definitions =
      [("Foo", fooI)] ∧
    lookupCnt (registerName ⟨[("Foo", fooI)], []⟩ "complexType" (some "Foo")
        none none none).redefinitions "Foo" =
      some ((lookupCnt ([] : List (String × Nat)) "Foo").getD 0 + 1) :=
  c7_first_write_wins.1 ⟨[("Foo", fooI)], []⟩ "complexType" "Foo" none none none fooI
    (by decide) (by decide) (by decide)

/-- C8 counterexample: the `xml-schema/analysis.py` report renders a record
with unknown kind and unknown mixed as `---` and `pure`, not as the
claimed `-----`/`-----` (which is what the tt report produces). -/
theorem c8_xs_unknown_rendering :
    tsvXS [("s", sUnknownC8)] = "s\t---\tpure" ∧
    tsvTT [("s", sUnknownC8)] = "s\t-----\t-----" ∧
    "s\t---\tpure" ≠ "s" ++ "\t" ++ "-----" ++ "\t" ++ "-----" :=
  ⟨by decide, by decide, by decide⟩

/-- C8 amended: the tt report emits one line per selected definition with
columns name, kind, mixed rendered by `repKind`/`repMixed`
(`simple`/`complex`/`-----`, `mixed`/`pure`/`-----`); the xml-schema
report instead renders an unknown kind as `---` and any non-true mixed —
known false or unknown — as `pure`. -/
theorem c8_tt_report_lines :
    (∀ t : Table, tsvTT t = String.intercalate "\n"
      ((interpretDefs t).map
        (fun x => x.1 ++ "\t" ++ repKind x.2.1 ++ "\t" ++ repMixed x.2.2))) ∧
    repKind none = "-----" ∧ repKind (some .simple) = "simple" ∧
    repKind (some .complex) = "complex" ∧
    repMixed none = "-----" ∧ repMixed (some true) = "mixed" ∧
    repMixed (some false) = "pure" ∧
    (∀ nm : String, tsvLineXS nm none none = nm ++ "\t" ++ "---" ++ "\t" ++ "pure") ∧
    (∀ nm : String, tsvLineXS nm none (some false) =
      nm ++ "\t" ++ "---" ++ "\t" ++ "pure") :=
  ⟨fun _ => rfl, rfl, rfl, rfl, rfl, rfl, rfl, fun _ => rfl, fun _ => rfl⟩

/-- C9 counterexample: record `a` has unknown mixed and refers to `b`
whose mixed is explicitly false — a known value — yet the tt inference
step copies nothing and counts zero changes, contradicting the claim that
a known-false referenced mixed is copied with one change. -/
theorem c9_explicit_false_not_copied :
    lookupT tblC9 "a" = some iaC9 ∧ iaC9.mixed = none ∧
    otherOf iaC9 = some "b" ∧ lookupT tblC9 (bareName "b") = some ibC9 ∧
    ibC9.mixed = some false ∧
    inferStep tblC9 "a" = (tblC9, 0) :=
  ⟨by decide, by decide, by decide, by decide, by decide, by decide⟩

/-- C9 amended: when the referenced record's mixed is not truthy (explicit
false or unknown), the record's mixed field is left exactly unchanged and
the only possible counted change is the kind copy; in particular a truthy
referenced mixed is handled by the earlier mixed-propagation check, so the
late copy branch never fires. -/
theorem c9_mixed_copy_requires_truthy (t : Table) (n : String)
    (info otherInfo : Info) (o : String)
    (h1 : lookupT t n = some info) (h2 : truthyOB info.mixed = false)
    (h3 : otherOf info = some o) (h4 : o ≠ "")
    (h5 : lookupT t (bareName o) = some otherInfo)
    (h6 : truthyOB otherInfo.mixed = false) :
    ∃ i', lookupT (inferStep t n).1 n = some i' ∧ i'.mixed = info.mixed ∧
      (inferStep t n).2 = (match info.kind, otherInfo.kind with
        | none, some _ => 1
        | _, _ => 0) := by
  have heq : inferStep t n =
      (updateT t n (stepInfo info otherInfo).1, (stepInfo info otherInfo).2) := by
    unfold inferStep
    rw [h1]
    simp [h2, h3, h4, h5]
  rw [heq]
  refine ⟨(stepInfo info otherInfo).1, ?_, ?_, ?_⟩
  · exact lookupT_updateT_self t n _ info h1
  · rw [stepInfo_eq, stepInfoXS_mixed_eq, h6]
    simp
  · rw [stepInfo_eq, stepInfoXS_not_truthy info otherInfo h6]
    cases hk : info.kind <;> cases hok : otherInfo.kind <;> simp [hk, hok]

/-- C9 witness: `m` refers to `n` whose mixed is unknown: the step leaves
`m`'s mixed unchanged and counts no change. -/
theorem c9_mixed_copy_requires_truthy_witness :
    ∃ i', lookupT (inferStep tblW9 "m").1 "m" = some i' ∧ i'.mixed = mW9.mixed ∧
      (inferStep tblW9 "m").2 = (match mW9.kind, nW9.kind with
        | none, some _ => 1
        | _, _ => 0) :=
  c9_mixed_copy_requires_truthy tblW9 "m" mW9 nW9 "n"
    (by decide) (by decide) (by decide) (by decide) (by decide) (by decide)

/-- C10: the mixed field of every extracted record is a defined boolean
(extraction from any root yields only defined mixed fields, resolution
preserves definedness), a freshly registered record stores
`mixed = some false` when the node has no mixed declaration, and a node
with no mixed attribute is extracted exactly like one with
`mixed="false"`. -/
theorem c10_mixed_always_defined :
    (∀ root : XNode, MixedDef (findDefs ⟨[], []⟩ root none false).definitions) ∧
    (∀ t : Table, MixedDef t → MixedDef (resolve t)) ∧
    (∀ (st : DefState) (tag nm : String) (a s : Option String),
      nm ≠ "" → notInteresting.contains tag = false →
      lookupT st.definitions nm = none →
      lookupT (registerName st tag (some nm) a none s).definitions nm =
        some ⟨tag, a = some "true", some false, none, s, none⟩) ∧
    (∀ (st : DefState) (dn : Option String) (td : Bool) (tag : String)
       (nm a s b : Option String) (ch : List XNode),
      findDefs st (.mk tag nm a none s b ch) dn td =
      findDefs st (.mk tag nm a (some "false") s b ch) dn td) := by
  refine ⟨?_, ?_, ?_, ?_⟩
  · intro root
    exact mixedDef_findDefs ⟨[], []⟩ root none false (by intro p hp; simp at hp)
  · intro t h
    exact mixedDef_resolve t h
  · intro st tag nm a s hnm htag h
    rw [registerName_absent st tag nm a none s hnm htag h]
    exact lookupT_append_right st.definitions nm _ h
  · intro st dn td tag nm a s b ch
    rfl

/-- C10 witness: definedness holds after resolving the witness table, and
a fresh registration of `Z` with no mixed declaration stores
`mixed = some false`. -/
theorem c10_mixed_always_defined_witness :
    MixedDef (resolve tblW4) ∧
    lookupT (registerName ⟨[], []⟩ "element" (some "Z") none none none).definitions "Z" =
      some ⟨"element", false, some false, none, none, none⟩ :=
  ⟨c10_mixed_always_defined.2.1 tblW4 (by unfold MixedDef; decide),
   c10_mixed_always_defined.2.2.1 ⟨[], []⟩ "element" "Z" none none
     (by decide) (by decide) (by decide)⟩

end TextTools
